import Mathlib

/-! Shallow embedding of the scalar-expression core of the query engine
(`expression/expression.go`): the data model, balanced CNF/DNF
composition and flattening, null-propagation evaluation, boolean
coercion, hashing and equality of constants, and the schema projection
builder, together with proofs of the specified properties. -/

namespace Tidb

/-- Modelled from the spec: the external tagged scalar-value type
(`types.Datum`), with a null representation, signed and unsigned
integer kinds (two representations of the same numeric values) and a
byte-string kind. -/
inductive Datum where
  | null
  | int (i : Int)
  | uint (n : Nat)
  | bytes (bs : List Nat)
deriving DecidableEq

/-- The null test of the value subsystem (`Datum.IsNull`). -/
def Datum.IsNull : Datum → Bool
  | .null => true
  | _ => false

/-- Three-way comparison of integers (-1 / 0 / 1). -/
def cmpInt (a b : Int) : Int :=
  if a < b then -1 else if b < a then 1 else 0

/-- Lexicographic three-way comparison of byte strings. -/
def cmpBytes : List Nat → List Nat → Int
  | [], [] => 0
  | [], _ :: _ => -1
  | _ :: _, [] => 1
  | a :: xs, b :: ys => if a < b then -1 else if b < a then 1 else cmpBytes xs ys

/-- Modelled from the spec: the external ordered value comparison
(`Datum.CompareDatum`): null sorts below everything, the numeric kinds
compare by value across representations, byte strings compare
lexicographically, and incompatible kinds are a comparison error. -/
def CompareDatum : Datum → Datum → Except String Int
  | .null, .null => .ok 0
  | .null, _ => .ok (-1)
  | _, .null => .ok 1
  | .int i, .int j => .ok (cmpInt i j)
  | .int i, .uint n => .ok (cmpInt i (n : Int))
  | .uint m, .int j => .ok (cmpInt (m : Int) j)
  | .uint m, .uint n => .ok (cmpInt (m : Int) (n : Int))
  | .bytes a, .bytes b => .ok (cmpBytes a b)
  | _, _ => .error "can not compare"

/-- Modelled from the spec: boolean coercion (`Datum.ToBool`); numeric
values coerce to 0/1, a byte string raises a coercion fault. -/
def Datum.ToBool : Datum → Except String Int
  | .null => .ok 0
  | .int i => .ok (if i = 0 then 0 else 1)
  | .uint n => .ok (if n = 0 then 0 else 1)
  | .bytes _ => .error "cannot convert to bool"

/-- Canonical encoding of an integer value (sign tag then magnitude). -/
def encodeInt (i : Int) : List Nat :=
  if i < 0 then [0, (-i).toNat] else [1, i.toNat]

/-- Canonical encoding of one value: a kind tag followed by the
payload; the two numeric representations share one canonical form. -/
def encodeDatum : Datum → List Nat
  | .null => [0]
  | .int i => 1 :: encodeInt i
  | .uint n => 1 :: encodeInt (n : Int)
  | .bytes bs => 2 :: bs

/-- Modelled from the spec: the external canonical byte-encoding
(`codec.EncodeValue`), appending the encoding of a value to a buffer;
values that compare equal encode identically. -/
def EncodeValue (b : List Nat) (d : Datum) : List Nat :=
  b ++ encodeDatum d

/-- Modelled from the spec: a field-type descriptor
(`types.FieldType`), reduced to its type tag. -/
structure FieldType where
  Tp : Nat
deriving DecidableEq

/-- `mysql.TypeTiny`. -/
def TypeTiny : Nat := 1

/-- `types.NewFieldType`. -/
def NewFieldType (tp : Nat) : FieldType := ⟨tp⟩

/-- Modelled from the spec: a case-insensitive string (`model.CIStr`):
original spelling `O` and lower-cased spelling `L`. -/
structure CIStr where
  O : String
  L : String
deriving DecidableEq

/-- `ast.AndAnd`, the canonical lower-case spelling of `AND`. -/
def AndAnd : String := "and"

/-- `ast.OrOr`, the canonical lower-case spelling of `OR`. -/
def OrOr : String := "or"

/-- Modelled from the spec: a column descriptor holding identifying
names, a declared type and a resolved position. -/
structure Column where
  ColName : CIStr
  TblName : CIStr
  DBName : CIStr
  RetType : FieldType
  Position : Int
deriving DecidableEq

/-- `Constant` stands for a constant value: the literal `Value` plus a
declared `RetType` (the type pointer may be nil, hence `Option`). -/
structure Constant where
  Value : Datum
  RetType : Option FieldType
deriving DecidableEq

/-- The expression data model: the `Expression` interface closed over
its variants. `nilExpr` stands for the nil interface value, which
`composeConditionWithBinaryOp` returns on an empty input list. -/
inductive Expression where
  | nilExpr
  | constant (c : Constant)
  | column (c : Column)
  | scalarFunction (FuncName : CIStr) (RetType : Option FieldType) (Args : List Expression)

/-- A schema: an ordered sequence of column descriptors. -/
abbrev Schema := List Column

/-- Modelled from the spec: descriptor lookup compares the identifying
names of two column descriptors. -/
def ColumnEqual (a b : Column) : Bool :=
  a.DBName.L == b.DBName.L && a.TblName.L == b.TblName.L && a.ColName.L == b.ColName.L

/-- Modelled from the spec: `Schema.GetIndex` returns the index of the
first matching descriptor, or the not-found sentinel -1. -/
def Schema.GetIndex : Schema → Column → Int
  | [], _ => -1
  | c :: rest, col =>
    if ColumnEqual c col then 0
    else
      let r := Schema.GetIndex rest col
      if r = -1 then -1 else r + 1

/-- The function names the construction collaborator recognizes in
this model: the canonical lower-case operator spellings. -/
def knownFuncNames : List String := [AndAnd, OrOr, "plus"]

/-- Modelled from the spec: the constructor contract
`NewFunction(name, returnType, args...)`: builds a ScalarFunction
application over the arguments and fails with a descriptive error when
the name is not a recognized function. -/
def NewFunction (funcName : String) (retType : Option FieldType) (args : List Expression) :
    Except String Expression :=
  if knownFuncNames.contains funcName then
    .ok (.scalarFunction ⟨funcName, funcName⟩ retType args)
  else
    .error ("unknown function " ++ funcName)

/-- `composeConditionWithBinaryOp` composes conditions with a binary
operator into a balanced tree: empty list yields the nil expression,
a singleton is returned unchanged, otherwise the list is split at the
midpoint and the halves are joined by one operator application (a
construction fault is discarded by the source, leaving the nil
expression). -/
def composeConditionWithBinaryOp (conditions : List Expression) (funcName : String) : Expression :=
  if _h0 : conditions.length = 0 then .nilExpr
  else if _h1 : conditions.length = 1 then conditions.headD .nilExpr
  else
    match NewFunction funcName (some (NewFieldType TypeTiny))
        [composeConditionWithBinaryOp (conditions.take (conditions.length / 2)) funcName,
         composeConditionWithBinaryOp (conditions.drop (conditions.length / 2)) funcName] with
    | .ok expr => expr
    | .error _ => .nilExpr
termination_by conditions.length
decreasing_by
  all_goals simp only [List.length_take, List.length_drop]
  all_goals omega

/-- `ComposeCNFCondition` composes CNF items into a balanced tree. -/
def ComposeCNFCondition (conditions : List Expression) : Expression :=
  composeConditionWithBinaryOp conditions AndAnd

/-- `ComposeDNFCondition` composes DNF items into a balanced tree. -/
def ComposeDNFCondition (conditions : List Expression) : Expression :=
  composeConditionWithBinaryOp conditions OrOr

mutual
/-- `splitNormalFormItems` splits a CNF/DNF tree into its items,
descending through nested applications of `funcName` only; any other
expression becomes a single item. -/
def splitNormalFormItems (onExpr : Expression) (funcName : String) : List Expression :=
  match onExpr with
  | .scalarFunction fn rt args =>
    if fn.L = funcName then splitNormalFormItemsList args funcName
    else [.scalarFunction fn rt args]
  | e => [e]

/-- The loop of `splitNormalFormItems` over the argument list,
appending the split of each argument. -/
def splitNormalFormItemsList (args : List Expression) (funcName : String) : List Expression :=
  match args with
  | [] => []
  | a :: rest => splitNormalFormItems a funcName ++ splitNormalFormItemsList rest funcName
end

/-- `SplitCNFItems` splits CNF items. -/
def SplitCNFItems (onExpr : Expression) : List Expression :=
  splitNormalFormItems onExpr AndAnd

/-- `SplitDNFItems` splits DNF items. -/
def SplitDNFItems (onExpr : Expression) : List Expression :=
  splitNormalFormItems onExpr OrOr

mutual
/-- `EvaluateExprWithNull` rewrites `expr` as if every column of
`schema` were bound to null: an in-scope column becomes an untyped
null constant, an out-of-scope column is returned unchanged, a
function application is rebuilt over the rewritten arguments, and
any other variant is cloned (which, for immutable values, is the
value itself). -/
def EvaluateExprWithNull (schema : Schema) (expr : Expression) : Except String Expression :=
  match expr with
  | .scalarFunction fn _ args =>
    match evalArgsWithNull schema args with
    | .error e => .error e
    | .ok args2 => NewFunction fn.L (some (NewFieldType TypeTiny)) args2
  | .column c =>
    if Schema.GetIndex schema c = -1 then .ok (.column c)
    else .ok (.constant ⟨Datum.null, none⟩)
  | x => .ok x

/-- The argument loop of `EvaluateExprWithNull`, with the source's
early return on the first error. -/
def evalArgsWithNull (schema : Schema) (args : List Expression) : Except String (List Expression) :=
  match args with
  | [] => .ok []
  | a :: rest =>
    match EvaluateExprWithNull schema a with
    | .error e => .error e
    | .ok a2 =>
      match evalArgsWithNull schema rest with
      | .error e => .error e
      | .ok rest2 => .ok (a2 :: rest2)
end

/-- Modelled from the spec: the catalog column info a result field
refers to (`model.ColumnInfo`): its own name and its field type. -/
structure ColumnInfo where
  Name : CIStr
  FieldType : FieldType

/-- Modelled from the spec: the catalog table info (`model.TableInfo`). -/
structure TableInfo where
  Name : CIStr

/-- Modelled from the spec: `ast.ResultField`, an external result-field
descriptor. -/
structure ResultField where
  Column : ColumnInfo
  ColumnAsName : CIStr
  Table : TableInfo
  TableAsName : CIStr
  DBName : CIStr

/-- One iteration of the `ResultFieldsToSchema` loop: the alias wins
over the underlying name when set, the declared type is the underlying
field's descriptor, and the position is the running index. -/
def columnOfResultField (i : Int) (field : ResultField) : Column :=
  { ColName := if field.ColumnAsName.L = "" then field.Column.Name else field.ColumnAsName
    TblName := if field.TableAsName.L = "" then field.Table.Name else field.TableAsName
    DBName := field.DBName
    RetType := field.Column.FieldType
    Position := i }

/-- The loop of `ResultFieldsToSchema` with its running index. -/
def resultFieldsToSchemaAux (i : Int) : List ResultField → List Column
  | [] => []
  | f :: rest => columnOfResultField i f :: resultFieldsToSchemaAux (i + 1) rest

/-- `ResultFieldsToSchema` converts a slice of result fields to a
schema. -/
def ResultFieldsToSchema (fields : List ResultField) : Schema :=
  resultFieldsToSchemaAux 0 fields

/-- `Constant.Equal`: a type test for Constant followed by value
comparison; a comparison error or a nonzero comparison is inequality. -/
def Constant.Equal (c : Constant) (b : Expression) : Bool :=
  match b with
  | .constant y =>
    match CompareDatum c.Value y.Value with
    | .error _ => false
    | .ok con => con == 0
  | _ => false

/-- `Constant.HashCode`: the value-encoding of the literal. -/
def Constant.HashCode (c : Constant) : List Nat :=
  EncodeValue [] c.Value

/-- Length-prefixed encoding of a string, for hashing. -/
def encodeStr (s : String) : List Nat :=
  s.length :: s.toList.map Char.toNat

mutual
/-- The interface method `Equal`, dispatched on the receiver: the
Constant case is the source's; the Column and ScalarFunction cases are
modelled from the spec as structural equality, with mismatched
variants never equal. -/
def Expression.Equal : Expression → Expression → Bool
  | .nilExpr, _ => false
  | .constant c, b => Constant.Equal c b
  | .column c, b =>
    match b with
    | .column y => ColumnEqual c y
    | _ => false
  | .scalarFunction fn _ args, b =>
    match b with
    | .scalarFunction gn _ bargs => fn.L == gn.L && Expression.EqualList args bargs
    | _ => false

/-- Pairwise equality of argument lists. -/
def Expression.EqualList : List Expression → List Expression → Bool
  | [], [] => true
  | a :: xs, b :: ys => Expression.Equal a b && Expression.EqualList xs ys
  | _, _ => false
end

mutual
/-- The interface method `HashCode`: the Constant case is the source's
value-encoding; the Column and ScalarFunction cases are modelled from
the spec as deterministic encodings of exactly the fields their
equality compares. -/
def Expression.HashCode : Expression → List Nat
  | .nilExpr => []
  | .constant c => Constant.HashCode c
  | .column c => 3 :: (encodeStr c.DBName.L ++ encodeStr c.TblName.L ++ encodeStr c.ColName.L)
  | .scalarFunction fn _ args => 4 :: (encodeStr fn.L ++ Expression.HashCodeList args)

/-- Concatenated hash codes of an argument list. -/
def Expression.HashCodeList : List Expression → List Nat
  | [] => []
  | a :: rest => Expression.HashCode a ++ Expression.HashCodeList rest
end

/-- Modelled from the spec: the opaque evaluation context; it carries
the row-independent semantics of the scalar functions, which are out
of scope of this core. -/
structure Context where
  evalFun : String → List Datum → Except String Datum

mutual
/-- The interface method `Eval`: the Constant case is the source's
(return the literal, no error); Column positional access and
ScalarFunction dispatch are modelled from the spec. -/
def Expression.Eval : Expression → List Datum → Context → Except String Datum
  | .nilExpr, _, _ => .error "nil expression"
  | .constant c, _, _ => .ok c.Value
  | .column c, row, _ =>
    if 0 ≤ c.Position ∧ c.Position.toNat < row.length then .ok (row.getD c.Position.toNat .null)
    else .error "index out of range"
  | .scalarFunction fn _ args, row, ctx =>
    match Expression.EvalRowArgs args row ctx with
    | .error e => .error e
    | .ok vals => ctx.evalFun fn.L vals

/-- Evaluation of an argument list, left to right, stopping at the
first error. -/
def Expression.EvalRowArgs : List Expression → List Datum → Context → Except String (List Datum)
  | [], _, _ => .ok []
  | a :: rest, row, ctx =>
    match Expression.Eval a row ctx with
    | .error e => .error e
    | .ok v =>
      match Expression.EvalRowArgs rest row ctx with
      | .error e => .error e
      | .ok vs => .ok (v :: vs)
end

/-- `EvalBool` evaluates an expression to a boolean value: an
evaluation error propagates, a null value collapses to false with no
error, otherwise the value is coerced to a boolean. -/
def EvalBool (expr : Expression) (row : List Datum) (ctx : Context) : Bool × Option String :=
  match Expression.Eval expr row ctx with
  | .error e => (false, some e)
  | .ok data =>
    if data.IsNull then (false, none)
    else
      match data.ToBool with
      | .error e => (false, some e)
      | .ok i => (i != 0, none)

mutual
/-- Application-nesting depth of an expression tree (non-application
leaves are at depth 0). -/
def depth : Expression → Nat
  | .scalarFunction _ _ args => 1 + depthList args
  | _ => 0

/-- Maximum depth over a list of expressions. -/
def depthList : List Expression → Nat
  | [] => 0
  | a :: rest => max (depth a) (depthList rest)
end

/-- Whether an expression is an application of the operator
`funcName`. -/
def isFuncApp (funcName : String) : Expression → Bool
  | .scalarFunction fn _ _ => fn.L == funcName
  | _ => false

/-- A context with no function semantics, for concrete instances. -/
def testCtx : Context := ⟨fun _ _ => .error "no function semantics"⟩

/-! ### Helper lemmas about composition and flattening -/

theorem compose_nil (op : String) : composeConditionWithBinaryOp [] op = .nilExpr := by
  simp [composeConditionWithBinaryOp]

theorem compose_singleton (e : Expression) (op : String) :
    composeConditionWithBinaryOp [e] op = e := by
  simp [composeConditionWithBinaryOp]

theorem compose_two_le (l : List Expression) (op : String) (h2 : 2 ≤ l.length)
    (hop : knownFuncNames.contains op = true) :
    composeConditionWithBinaryOp l op =
      .scalarFunction ⟨op, op⟩ (some (NewFieldType TypeTiny))
        [composeConditionWithBinaryOp (l.take (l.length / 2)) op,
         composeConditionWithBinaryOp (l.drop (l.length / 2)) op] := by
  have h0 : ¬ l.length = 0 := by omega
  have h1 : ¬ l.length = 1 := by omega
  rw [composeConditionWithBinaryOp]
  rw [dif_neg h0, dif_neg h1]
  simp only [NewFunction, hop, if_true]

theorem depth_leaf_iff (e : Expression) :
    depth e = 0 ↔ ∀ fn rt args, e ≠ .scalarFunction fn rt args := by
  cases e <;> simp [depth]

theorem compose_depth_aux :
    ∀ (n : Nat) (l : List Expression) (op : String), l.length = n →
      knownFuncNames.contains op = true → l ≠ [] → (∀ e ∈ l, depth e = 0) →
      depth (composeConditionWithBinaryOp l op) = Nat.clog 2 n := by
  intro n
  induction n using Nat.strong_induction_on with
  | _ n ih =>
    intro l op hlen hop hne hdep
    have hpos : 0 < n := by
      rw [← hlen]
      exact List.length_pos.mpr hne
    by_cases h1 : n = 1
    · obtain ⟨e, rfl⟩ := List.length_eq_one.mp (hlen.trans h1)
      rw [compose_singleton, h1, Nat.clog_one_right]
      exact hdep e (List.mem_singleton_self e)
    · have h2 : 2 ≤ n := by omega
      have h2l : 2 ≤ l.length := by omega
      have hta : (l.take (l.length / 2)).length = n / 2 := by
        simp [List.length_take, hlen]
        omega
      have hda : (l.drop (l.length / 2)).length = n - n / 2 := by
        simp [List.length_drop, hlen]
      have htne : l.take (l.length / 2) ≠ [] := by
        intro hnil
        rw [hnil] at hta
        simp at hta
        omega
      have hdne : l.drop (l.length / 2) ≠ [] := by
        intro hnil
        rw [hnil] at hda
        simp at hda
        omega
      have hda' := ih (n / 2) (by omega) (l.take (l.length / 2)) op hta hop htne
        (fun e he => hdep e (List.take_subset _ _ he))
      have hdb' := ih (n - n / 2) (by omega) (l.drop (l.length / 2)) op hda hop hdne
        (fun e he => hdep e (List.drop_subset _ _ he))
      rw [compose_two_le l op h2l hop]
      simp only [depth, depthList, hda', hdb', Nat.max_zero]
      have hmono : Nat.clog 2 (n / 2) ≤ Nat.clog 2 (n - n / 2) :=
        Nat.clog_mono_right 2 (by omega)
      rw [Nat.max_eq_right hmono]
      have hrw : n - n / 2 = (n + 2 - 1) / 2 := by omega
      rw [hrw, Nat.clog_of_two_le one_lt_two h2]
      omega

theorem split_not_app (e : Expression) (op : String) (h : isFuncApp op e = false) :
    splitNormalFormItems e op = [e] := by
  cases e with
  | scalarFunction fn rt args =>
    simp only [isFuncApp, beq_eq_false_iff_ne, ne_eq] at h
    simp [splitNormalFormItems, h]
  | nilExpr => simp [splitNormalFormItems]
  | constant c => simp [splitNormalFormItems]
  | column c => simp [splitNormalFormItems]

theorem split_compose_aux :
    ∀ (n : Nat) (l : List Expression) (op : String), l.length = n →
      knownFuncNames.contains op = true → l ≠ [] → (∀ e ∈ l, isFuncApp op e = false) →
      splitNormalFormItems (composeConditionWithBinaryOp l op) op = l := by
  intro n
  induction n using Nat.strong_induction_on with
  | _ n ih =>
    intro l op hlen hop hne happ
    have hpos : 0 < n := by
      rw [← hlen]
      exact List.length_pos.mpr hne
    by_cases h1 : n = 1
    · obtain ⟨e, rfl⟩ := List.length_eq_one.mp (hlen.trans h1)
      rw [compose_singleton]
      exact split_not_app e op (happ e (List.mem_singleton_self e))
    · have h2 : 2 ≤ n := by omega
      have h2l : 2 ≤ l.length := by omega
      have hta : (l.take (l.length / 2)).length = n / 2 := by
        simp [List.length_take, hlen]
        omega
      have hda : (l.drop (l.length / 2)).length = n - n / 2 := by
        simp [List.length_drop, hlen]
      have htne : l.take (l.length / 2) ≠ [] := by
        intro hnil
        rw [hnil] at hta
        simp at hta
        omega
      have hdne : l.drop (l.length / 2) ≠ [] := by
        intro hnil
        rw [hnil] at hda
        simp at hda
        omega
      have hsa := ih (n / 2) (by omega) (l.take (l.length / 2)) op hta hop htne
        (fun e he => happ e (List.take_subset _ _ he))
      have hsb := ih (n - n / 2) (by omega) (l.drop (l.length / 2)) op hda hop hdne
        (fun e he => happ e (List.drop_subset _ _ he))
      rw [compose_two_le l op h2l hop]
      simp only [splitNormalFormItems, splitNormalFormItemsList, if_pos rfl,
        List.append_nil, hsa, hsb]
      exact List.take_append_drop _ l

/-! ### Helper lemmas about comparison, equality and hashing -/

theorem cmpInt_eq_zero {a b : Int} (h : cmpInt a b = 0) : a = b := by
  simp only [cmpInt] at h
  split at h
  · omega
  · split at h
    · omega
    · omega

theorem cmpBytes_eq_zero : ∀ {xs ys : List Nat}, cmpBytes xs ys = 0 → xs = ys := by
  intro xs
  induction xs with
  | nil =>
    intro ys h
    cases ys with
    | nil => rfl
    | cons b t => simp [cmpBytes] at h
  | cons a t ihx =>
    intro ys h
    cases ys with
    | nil => simp [cmpBytes] at h
    | cons b u =>
      simp only [cmpBytes] at h
      split at h
      · omega
      · split at h
        · omega
        · have hab : a = b := by omega
          rw [hab, ihx h]

theorem compareDatum_zero_encode :
    ∀ (u v : Datum), CompareDatum u v = .ok 0 → encodeDatum u = encodeDatum v := by
  intro u v h
  cases u <;> cases v <;>
    simp only [CompareDatum, Except.ok.injEq, reduceCtorEq] at h <;>
    simp only [encodeDatum] <;>
    first
      | rfl
      | omega
      | rw [cmpInt_eq_zero h]
      | rw [cmpBytes_eq_zero h]

theorem constant_equal_compare {c y : Constant}
    (h : Constant.Equal c (.constant y) = true) :
    CompareDatum c.Value y.Value = .ok 0 := by
  simp only [Constant.Equal] at h
  cases hc : CompareDatum c.Value y.Value with
  | error e =>
    rw [hc] at h
    simp at h
  | ok con =>
    rw [hc] at h
    simp only [beq_iff_eq] at h
    rw [h]

theorem equal_hash_aux :
    ∀ (n : Nat) (a b : Expression), sizeOf a ≤ n → Expression.Equal a b = true →
      Expression.HashCode a = Expression.HashCode b := by
  intro n
  induction n with
  | zero =>
    intro a b hsz heq
    have hpos : 0 < sizeOf a := by cases a <;> simp_arith
    omega
  | succ n ih =>
    intro a b hsz heq
    cases a with
    | nilExpr => simp [Expression.Equal] at heq
    | constant c =>
      cases b with
      | constant y =>
        have hcmp := constant_equal_compare (c := c) (y := y)
          (by simpa [Expression.Equal] using heq)
        simp only [Expression.HashCode, Constant.HashCode, EncodeValue, List.nil_append]
        exact compareDatum_zero_encode _ _ hcmp
      | nilExpr => simp [Expression.Equal, Constant.Equal] at heq
      | column y => simp [Expression.Equal, Constant.Equal] at heq
      | scalarFunction gn grt bargs => simp [Expression.Equal, Constant.Equal] at heq
    | column c =>
      cases b with
      | column y =>
        simp only [Expression.Equal, ColumnEqual, Bool.and_eq_true, beq_iff_eq] at heq
        obtain ⟨⟨hdb, htb⟩, hcn⟩ := heq
        simp only [Expression.HashCode, hdb, htb, hcn]
      | nilExpr => simp [Expression.Equal] at heq
      | constant y => simp [Expression.Equal] at heq
      | scalarFunction gn grt bargs => simp [Expression.Equal] at heq
    | scalarFunction fn rt args =>
      cases b with
      | scalarFunction gn grt bargs =>
        simp only [Expression.Equal, Bool.and_eq_true, beq_iff_eq] at heq
        obtain ⟨hname, hargs⟩ := heq
        have hmem : ∀ x ∈ args, sizeOf x ≤ n := by
          intro x hx
          have h1 : sizeOf x < sizeOf args := List.sizeOf_lt_of_mem hx
          have h2 : sizeOf args < sizeOf (Expression.scalarFunction fn rt args) := by
            simp_arith
          omega
        have hsub : ∀ (xs ys : List Expression), (∀ x ∈ xs, sizeOf x ≤ n) →
            Expression.EqualList xs ys = true →
            Expression.HashCodeList xs = Expression.HashCodeList ys := by
          intro xs
          induction xs with
          | nil =>
            intro ys hx hxy
            cases ys with
            | nil => rfl
            | cons y yt => simp [Expression.EqualList] at hxy
          | cons x xt ihx =>
            intro ys hx hxy
            cases ys with
            | nil => simp [Expression.EqualList] at hxy
            | cons y yt =>
              simp only [Expression.EqualList, Bool.and_eq_true] at hxy
              simp only [Expression.HashCodeList]
              rw [ih x y (hx x (List.mem_cons_self x xt)) hxy.1,
                ihx yt (fun z hz => hx z (List.mem_cons_of_mem x hz)) hxy.2]
        simp only [Expression.HashCode, hname, hsub args bargs hmem hargs]
      | nilExpr => simp [Expression.Equal] at heq
      | constant y => simp [Expression.Equal] at heq
      | column y => simp [Expression.Equal] at heq

/-! ### Claim theorems -/

/-- C1: for a non-empty list of N conditions, `composeConditionWithBinaryOp`
(and hence `ComposeCNFCondition` / `ComposeDNFCondition`, its AND/OR
specializations) returns the single input unchanged for N = 1, splits
the list at the midpoint and joins the recursively composed halves
with one operator application for N ≥ 2, and produces a tree of
application-nesting depth ⌈log2 N⌉ over the input leaves. -/
theorem composeConditionWithBinaryOp_balanced (l : List Expression) (op : String)
    (hop : op = AndAnd ∨ op = OrOr) (hne : l ≠ []) :
    (∀ e, l = [e] → composeConditionWithBinaryOp l op = e) ∧
    (2 ≤ l.length → composeConditionWithBinaryOp l op =
      .scalarFunction ⟨op, op⟩ (some (NewFieldType TypeTiny))
        [composeConditionWithBinaryOp (l.take (l.length / 2)) op,
         composeConditionWithBinaryOp (l.drop (l.length / 2)) op]) ∧
    ((∀ e ∈ l, depth e = 0) →
      depth (composeConditionWithBinaryOp l op) = Nat.clog 2 l.length) := by
  have hk : knownFuncNames.contains op = true := by
    rcases hop with h | h <;> subst h <;> rfl
  refine ⟨?_, ?_, ?_⟩
  · rintro e rfl
    exact compose_singleton e op
  · intro h2
    exact compose_two_le l op h2 hk
  · intro hdep
    exact compose_depth_aux l.length l op rfl hk hne hdep

/-- Witness for C1 at a concrete three-element list of constants:
the composed AND-tree has depth ⌈log2 3⌉. -/
theorem composeConditionWithBinaryOp_balanced_witness :
    depth (composeConditionWithBinaryOp
      [Expression.constant ⟨.int 1, none⟩, Expression.constant ⟨.int 2, none⟩,
       Expression.constant ⟨.int 3, none⟩] AndAnd) = Nat.clog 2 3 := by
  have hdep : ∀ e ∈ [Expression.constant ⟨Datum.int 1, none⟩,
      Expression.constant ⟨Datum.int 2, none⟩, Expression.constant ⟨Datum.int 3, none⟩],
      depth e = 0 := by
    intro e he
    simp only [List.mem_cons, List.not_mem_nil, or_false] at he
    rcases he with h | h | h <;> subst h <;> rfl
  exact (composeConditionWithBinaryOp_balanced _ AndAnd (Or.inl rfl) (by simp)).2.2 hdep

/-- C10: for a non-empty list none of whose elements is an application
of the operator, flattening the balanced composition returns exactly
the input list, in the same left-to-right order. -/
theorem splitNormalFormItems_compose_roundtrip (l : List Expression) (op : String)
    (hop : op = AndAnd ∨ op = OrOr) (hne : l ≠ [])
    (happ : ∀ e ∈ l, isFuncApp op e = false) :
    splitNormalFormItems (composeConditionWithBinaryOp l op) op = l := by
  have hk : knownFuncNames.contains op = true := by
    rcases hop with h | h <;> subst h <;> rfl
  exact split_compose_aux l.length l op rfl hk hne happ

/-- Witness for C10 at a concrete two-element list. -/
theorem splitNormalFormItems_compose_roundtrip_witness :
    splitNormalFormItems (composeConditionWithBinaryOp
      [Expression.constant ⟨.int 7, none⟩, Expression.nilExpr] OrOr) OrOr =
      [Expression.constant ⟨.int 7, none⟩, Expression.nilExpr] := by
  refine splitNormalFormItems_compose_roundtrip _ OrOr (Or.inr rfl) (by simp) ?_
  intro e he
  simp only [List.mem_cons, List.not_mem_nil, or_false] at he
  rcases he with h | h <;> subst h <;> rfl

/-- C3 counterexample: on the empty list the claim fails, because the
composition of the empty list is the nil expression, whose split is
the one-element list holding that nil expression rather than a list
with the empty multiset of elements. -/
theorem splitCNF_composeCNF_empty_perm_counterexample :
    ¬ (SplitCNFItems (ComposeCNFCondition [])).Perm [] := by
  intro h
  have hl := h.length_eq
  simp [SplitCNFItems, ComposeCNFCondition, composeConditionWithBinaryOp,
    splitNormalFormItems] at hl

/-- C3 (amended to non-empty lists): for a non-empty list of
expressions none of which is an AND-application, splitting the
composed CNF tree yields the same multiset of elements as the input
list. -/
theorem splitCNF_composeCNF_perm (l : List Expression) (hne : l ≠ [])
    (happ : ∀ e ∈ l, isFuncApp AndAnd e = false) :
    (SplitCNFItems (ComposeCNFCondition l)).Perm l := by
  rw [SplitCNFItems, ComposeCNFCondition,
    split_compose_aux l.length l AndAnd rfl rfl hne happ]

/-- Witness for the amended C3 at a concrete singleton list. -/
theorem splitCNF_composeCNF_perm_witness :
    (SplitCNFItems (ComposeCNFCondition [Expression.constant ⟨.int 4, none⟩])).Perm
      [Expression.constant ⟨.int 4, none⟩] := by
  refine splitCNF_composeCNF_perm _ (by simp) ?_
  intro e he
  simp only [List.mem_cons, List.not_mem_nil, or_false] at he
  subst he
  rfl

/-- C2 counterexample: `SplitCNFItems` of the nil result of
`ComposeCNFCondition []` is not the empty list (the nil expression
matches no case of the split's type switch, so the split wraps it in a
one-element list). -/
theorem splitCNF_of_composeCNF_empty_counterexample :
    SplitCNFItems (ComposeCNFCondition []) ≠ ([] : List Expression) := by
  simp [SplitCNFItems, ComposeCNFCondition, composeConditionWithBinaryOp,
    splitNormalFormItems]

/-- C2 (amended): `ComposeCNFCondition []` returns the nil expression,
and `SplitCNFItems` of that nil result returns the one-element list
holding the nil expression, not an empty list. -/
theorem composeCNF_empty_and_split_of_nil :
    ComposeCNFCondition [] = Expression.nilExpr ∧
      SplitCNFItems Expression.nilExpr = [Expression.nilExpr] := by
  constructor
  · simp [ComposeCNFCondition, composeConditionWithBinaryOp]
  · rfl

/-- C4: `Equal` expressions have identical hash codes; in particular,
two Constants whose values compare equal — possibly across the two
numeric value representations — have byte-identical value-encoding
hash codes, whatever their declared types. -/
theorem equal_implies_hashCode_eq :
    (∀ a b : Expression, Expression.Equal a b = true →
      Expression.HashCode a = Expression.HashCode b) ∧
    (∀ (u v : Datum) (t1 t2 : Option FieldType), CompareDatum u v = .ok 0 →
      Constant.HashCode ⟨u, t1⟩ = Constant.HashCode ⟨v, t2⟩) := by
  constructor
  · intro a b h
    exact equal_hash_aux (sizeOf a) a b le_rfl h
  · intro u v t1 t2 h
    simp only [Constant.HashCode, EncodeValue, List.nil_append]
    exact compareDatum_zero_encode u v h

/-- Witness for C4: a signed and an unsigned representation of 3, with
different declared types, are Equal and hash identically. -/
theorem equal_implies_hashCode_eq_witness :
    Expression.HashCode (.constant ⟨.int 3, some (NewFieldType TypeTiny)⟩) =
      Expression.HashCode (.constant ⟨.uint 3, none⟩) :=
  equal_implies_hashCode_eq.1 _ _
    (by simp [Expression.Equal, Constant.Equal, CompareDatum, cmpInt])

/-- C5: two Constants holding values that compare equal are `Equal`
regardless of their declared types, and a Constant is never `Equal` to
a non-Constant expression. -/
theorem constant_equal_semantics :
    (∀ (u v : Datum) (t1 t2 : Option FieldType), CompareDatum u v = .ok 0 →
      Constant.Equal ⟨u, t1⟩ (.constant ⟨v, t2⟩) = true) ∧
    (∀ (c : Constant) (e : Expression), (∀ y, e ≠ .constant y) →
      Constant.Equal c e = false) := by
  constructor
  · intro u v t1 t2 h
    simp [Constant.Equal, h]
  · intro c e h
    cases e with
    | constant y => exact absurd rfl (h y)
    | nilExpr => rfl
    | column y => rfl
    | scalarFunction fn rt args => rfl

/-- Witness for C5: integer 3 in its two representations compares
equal, and a Constant is not Equal to a column whose evaluation could
coincide. -/
theorem constant_equal_semantics_witness :
    Constant.Equal ⟨.int 3, some (NewFieldType TypeTiny)⟩ (.constant ⟨.uint 3, none⟩) = true ∧
      Constant.Equal ⟨.int 3, none⟩
        (.column ⟨⟨"a", "a"⟩, ⟨"t", "t"⟩, ⟨"", ""⟩, ⟨1⟩, 0⟩) = false := by
  constructor
  · exact constant_equal_semantics.1 (.int 3) (.uint 3) _ _ (by rfl)
  · exact constant_equal_semantics.2 _ _ (by intro y; simp)

/-- C6: `EvaluateExprWithNull` leaves a column untouched (and returns
no error) when the schema lookup yields the not-found sentinel -1, and
replaces an in-scope column by a Constant holding the null value whose
declared type is nil — not the column's type. -/
theorem evaluateExprWithNull_column (S : Schema) (c : Column) :
    (Schema.GetIndex S c = -1 →
      EvaluateExprWithNull S (.column c) = .ok (.column c)) ∧
    (Schema.GetIndex S c ≠ -1 →
      EvaluateExprWithNull S (.column c) = .ok (.constant ⟨Datum.null, none⟩)) := by
  constructor
  · intro h
    simp [EvaluateExprWithNull, h]
  · intro h
    simp [EvaluateExprWithNull, h]

/-- Witness for C6: a column outside an empty schema is returned
unchanged; the same column inside a schema containing it becomes the
untyped null constant. -/
theorem evaluateExprWithNull_column_witness :
    EvaluateExprWithNull [] (.column ⟨⟨"a", "a"⟩, ⟨"t", "t"⟩, ⟨"", ""⟩, ⟨1⟩, -1⟩) =
      .ok (.column ⟨⟨"a", "a"⟩, ⟨"t", "t"⟩, ⟨"", ""⟩, ⟨1⟩, -1⟩) ∧
    EvaluateExprWithNull [⟨⟨"a", "a"⟩, ⟨"t", "t"⟩, ⟨"", ""⟩, ⟨1⟩, -1⟩]
        (.column ⟨⟨"a", "a"⟩, ⟨"t", "t"⟩, ⟨"", ""⟩, ⟨1⟩, -1⟩) =
      .ok (.constant ⟨Datum.null, none⟩) := by
  constructor
  · exact (evaluateExprWithNull_column [] _).1 (by rfl)
  · exact (evaluateExprWithNull_column [_] _).2 (by decide)

/-! ### Helper lemmas about the argument loop of EvaluateExprWithNull -/

theorem evalArgs_error_of_prefix (S : Schema) :
    ∀ (pre : List Expression) (a : Expression) (post : List Expression) (e : String),
      (∀ b ∈ pre, ∃ b2, EvaluateExprWithNull S b = .ok b2) →
      EvaluateExprWithNull S a = .error e →
      evalArgsWithNull S (pre ++ a :: post) = .error e := by
  intro pre
  induction pre with
  | nil =>
    intro a post e hpre ha
    simp only [List.nil_append, evalArgsWithNull, ha]
  | cons b pt ih =>
    intro a post e hpre ha
    obtain ⟨b2, hb⟩ := hpre b (List.mem_cons_self b pt)
    have hrest := ih a post e (fun x hx => hpre x (List.mem_cons_of_mem b hx)) ha
    simp only [List.cons_append, evalArgsWithNull, hb]
    rw [show pt.append (a :: post) = pt ++ a :: post from rfl, hrest]

theorem evalArgs_ok_of_pointwise (S : Schema) :
    ∀ (args args2 : List Expression), args.length = args2.length →
      (∀ i a a2, args.get? i = some a → args2.get? i = some a2 →
        EvaluateExprWithNull S a = .ok a2) →
      evalArgsWithNull S args = .ok args2 := by
  intro args
  induction args with
  | nil =>
    intro args2 hlen hpt
    cases args2 with
    | nil => rfl
    | cons a2 t2 => simp at hlen
  | cons a at' iha =>
    intro args2 hlen hpt
    cases args2 with
    | nil => simp at hlen
    | cons a2 at2 =>
      have h0 : EvaluateExprWithNull S a = .ok a2 := hpt 0 a a2 rfl rfl
      simp only [evalArgsWithNull, h0,
        iha at2 (by simpa using hlen) (fun i x x2 hx hx2 => hpt (i + 1) x x2 hx hx2)]

/-- C7: `EvaluateExprWithNull` on a function application rewrites the
arguments left to right — propagating the first argument fault without
suppression — and, when every argument rewrites successfully, builds a
new application through `NewFunction` with the function's lower-cased
name over the rewritten argument list (so a construction fault is
returned to the caller as well). -/
theorem evaluateExprWithNull_scalarFunction (S : Schema) (fn : CIStr)
    (rt : Option FieldType) (args : List Expression) :
    (∀ (pre : List Expression) (a : Expression) (post : List Expression) (e : String),
      args = pre ++ a :: post →
      (∀ b ∈ pre, ∃ b2, EvaluateExprWithNull S b = .ok b2) →
      EvaluateExprWithNull S a = .error e →
      EvaluateExprWithNull S (.scalarFunction fn rt args) = .error e) ∧
    (∀ args2 : List Expression, args.length = args2.length →
      (∀ i a a2, args.get? i = some a → args2.get? i = some a2 →
        EvaluateExprWithNull S a = .ok a2) →
      EvaluateExprWithNull S (.scalarFunction fn rt args) =
        NewFunction fn.L (some (NewFieldType TypeTiny)) args2) := by
  constructor
  · rintro pre a post e rfl hpre ha
    simp only [EvaluateExprWithNull, evalArgs_error_of_prefix S pre a post e hpre ha]
  · intro args2 hlen hpt
    simp only [EvaluateExprWithNull, evalArgs_ok_of_pointwise S args args2 hlen hpt]

/-- Witness for C7: an AND application whose argument is an
application of an unknown function; the construction fault raised
while rewriting the argument is propagated to the caller. -/
theorem evaluateExprWithNull_scalarFunction_witness :
    EvaluateExprWithNull []
        (.scalarFunction ⟨"and", "and"⟩ none [.scalarFunction ⟨"foo", "foo"⟩ none []]) =
      .error "unknown function foo" :=
  (evaluateExprWithNull_scalarFunction [] ⟨"and", "and"⟩ none
      [.scalarFunction ⟨"foo", "foo"⟩ none []]).1
    [] (.scalarFunction ⟨"foo", "foo"⟩ none []) [] "unknown function foo" rfl
    (by intro b hb; simp at hb) (by rfl)

/-- C8: `EvalBool` propagates an evaluation error with a false value,
collapses a null result to `(false, noError)`, propagates a boolean
coercion error, and otherwise returns true exactly when the coerced
value is nonzero, with no error. -/
theorem evalBool_semantics (expr : Expression) (row : List Datum) (ctx : Context) :
    (∀ e, Expression.Eval expr row ctx = .error e →
      EvalBool expr row ctx = (false, some e)) ∧
    (∀ d, Expression.Eval expr row ctx = .ok d → d.IsNull = true →
      EvalBool expr row ctx = (false, none)) ∧
    (∀ d e, Expression.Eval expr row ctx = .ok d → d.IsNull = false →
      d.ToBool = .error e → EvalBool expr row ctx = (false, some e)) ∧
    (∀ d i, Expression.Eval expr row ctx = .ok d → d.IsNull = false → d.ToBool = .ok i →
      ((EvalBool expr row ctx).1 = true ↔ i ≠ 0) ∧ (EvalBool expr row ctx).2 = none) := by
  refine ⟨?_, ?_, ?_, ?_⟩
  · intro e h
    simp [EvalBool, h]
  · intro d h hn
    simp [EvalBool, h, hn]
  · intro d e h hn ht
    simp [EvalBool, h, hn, ht]
  · intro d i h hn ht
    simp [EvalBool, h, hn, ht, bne_iff_ne]

/-- Witness for C8: the constant 2 is not null, coerces to 1, and
`EvalBool` reports true with no error. -/
theorem evalBool_semantics_witness :
    ((EvalBool (.constant ⟨.int 2, none⟩) [] testCtx).1 = true ↔ (1 : Int) ≠ 0) ∧
      (EvalBool (.constant ⟨.int 2, none⟩) [] testCtx).2 = none :=
  (evalBool_semantics (.constant ⟨.int 2, none⟩) [] testCtx).2.2.2 (.int 2) 1 rfl rfl rfl

/-! ### Helper lemmas about the schema projection builder -/

theorem resultFieldsToSchemaAux_length :
    ∀ (fields : List ResultField) (k : Int),
      (resultFieldsToSchemaAux k fields).length = fields.length := by
  intro fields
  induction fields with
  | nil => intro k; rfl
  | cons g rest ihf =>
    intro k
    simp [resultFieldsToSchemaAux, ihf]

theorem resultFieldsToSchemaAux_get? :
    ∀ (fields : List ResultField) (k : Int) (i : Nat) (f : ResultField),
      fields.get? i = some f →
      (resultFieldsToSchemaAux k fields).get? i = some (columnOfResultField (k + i) f) := by
  intro fields
  induction fields with
  | nil =>
    intro k i f h
    simp at h
  | cons g rest ihf =>
    intro k i f h
    cases i with
    | zero =>
      simp only [List.get?] at h
      injection h with h
      subst h
      simp [resultFieldsToSchemaAux]
    | succ n =>
      simp only [List.get?] at h
      simp only [resultFieldsToSchemaAux, List.get?]
      rw [ihf (k + 1) n f h]
      have harith : k + 1 + (n : Int) = k + ((n : Nat) + 1 : Nat) := by
        push_cast
        ring
      rw [harith]

/-- C9: `ResultFieldsToSchema` produces one column per field in order;
the i-th column's display names prefer the explicit aliases and fall
back to the underlying column and table names, its declared type is
the underlying field's type descriptor, and its position is i. -/
theorem resultFieldsToSchema_correct (fields : List ResultField) (i : Nat) (f : ResultField)
    (h : fields.get? i = some f) :
    (ResultFieldsToSchema fields).length = fields.length ∧
    (ResultFieldsToSchema fields).get? i = some
      { ColName := if f.ColumnAsName.L = "" then f.Column.Name else f.ColumnAsName
        TblName := if f.TableAsName.L = "" then f.Table.Name else f.TableAsName
        DBName := f.DBName
        RetType := f.Column.FieldType
        Position := (i : Int) } := by
  constructor
  · exact resultFieldsToSchemaAux_length fields 0
  · have hg := resultFieldsToSchemaAux_get? fields 0 i f h
    simpa [columnOfResultField] using hg

/-- Witness for C9 at a two-field list: the first field has no
aliases and keeps its own names, the second field's aliases win, and
positions are 0-based indices. -/
theorem resultFieldsToSchema_correct_witness :
    (ResultFieldsToSchema
        [⟨⟨⟨"c1", "c1"⟩, ⟨2⟩⟩, ⟨"", ""⟩, ⟨⟨"t1", "t1"⟩⟩, ⟨"", ""⟩, ⟨"db", "db"⟩⟩,
         ⟨⟨⟨"c1", "c1"⟩, ⟨2⟩⟩, ⟨"C2", "c2"⟩, ⟨⟨"t1", "t1"⟩⟩, ⟨"T2", "t2"⟩, ⟨"db", "db"⟩⟩]).length = 2 ∧
    (ResultFieldsToSchema
        [⟨⟨⟨"c1", "c1"⟩, ⟨2⟩⟩, ⟨"", ""⟩, ⟨⟨"t1", "t1"⟩⟩, ⟨"", ""⟩, ⟨"db", "db"⟩⟩,
         ⟨⟨⟨"c1", "c1"⟩, ⟨2⟩⟩, ⟨"C2", "c2"⟩, ⟨⟨"t1", "t1"⟩⟩, ⟨"T2", "t2"⟩, ⟨"db", "db"⟩⟩]).get? 1 =
      some ⟨⟨"C2", "c2"⟩, ⟨"T2", "t2"⟩, ⟨"db", "db"⟩, ⟨2⟩, 1⟩ := by
  have h := resultFieldsToSchema_correct
    [⟨⟨⟨"c1", "c1"⟩, ⟨2⟩⟩, ⟨"", ""⟩, ⟨⟨"t1", "t1"⟩⟩, ⟨"", ""⟩, ⟨"db", "db"⟩⟩,
     ⟨⟨⟨"c1", "c1"⟩, ⟨2⟩⟩, ⟨"C2", "c2"⟩, ⟨⟨"t1", "t1"⟩⟩, ⟨"T2", "t2"⟩, ⟨"db", "db"⟩⟩]
    1 ⟨⟨⟨"c1", "c1"⟩, ⟨2⟩⟩, ⟨"C2", "c2"⟩, ⟨⟨"t1", "t1"⟩⟩, ⟨"T2", "t2"⟩, ⟨"db", "db"⟩⟩ rfl
  exact ⟨h.1, by simpa using h.2⟩

end Tidb
